import Mathlib

/-!
Shallow embedding of the chunked sequential transcription engine of the
sales-audio-transcript repository, together with proofs settling the frozen
claims about it.

Texts are modelled as `List Char` (one entry per UTF-16 code unit of the
JavaScript string; every character appearing in the claims lies in the basic
multilingual plane, where the two notions of length agree).  JavaScript
numbers are modelled as `Rat`: every constant and every arithmetic operation
appearing in the modelled code paths is exact at the granularity the claims
compare, so no claim hinges on binary floating-point rounding.
-/

namespace SalesAudio

/-! ### Character classes used by the service (`src/src/services/transcriptionService.js`) -/

/-- Whitespace as matched by the JavaScript `\s` class, restricted to the
characters occurring in this code base (ASCII whitespace, NBSP and the
ideographic space). -/
def isWs (c : Char) : Bool :=
  c == ' ' || c == '\t' || c == '\n' || c == '\r' ||
  c == '\x0b' || c == '\x0c' || c == ' ' || c == '　'

/-- The CJK punctuation set of `checkPunctuation`, regex `[。！？，、；：]`. -/
def isPunct (c : Char) : Bool :=
  c == '。' || c == '！' || c == '？' || c == '，' || c == '、' || c == '；' || c == '：'

/-- CJK unified ideographs, regex `[一-鿿]` of `checkChineseRatio`. -/
def isChineseChar (c : Char) : Bool :=
  0x4e00 ≤ c.toNat && c.toNat ≤ 0x9fff

/-- Worker for `jsSplitWs`; `acc` holds the current token reversed and
`inSep` records whether we are inside a whitespace run whose token has
already been emitted. -/
def splitWsGo : List Char → List Char → Bool → List (List Char)
  | [], acc, _ => [acc.reverse]
  | c :: rest, acc, inSep =>
    if isWs c then
      if inSep then splitWsGo rest acc true
      else acc.reverse :: splitWsGo rest [] true
    else
      splitWsGo rest (c :: acc) false

/-- JavaScript `text.split(/\s+/)`: tokens between maximal whitespace runs,
with an empty token at the start (resp. end) when the text starts (resp.
ends) with whitespace, and `[""]` on the empty string. -/
def jsSplitWs (s : List Char) : List (List Char) := splitWsGo s [] false

/-- JavaScript `Math.min` on (exactly representable) numbers. -/
def jsMin (a b : Rat) : Rat := if a ≤ b then a else b

/-- JavaScript `Math.max` on (exactly representable) numbers. -/
def jsMax (a b : Rat) : Rat := if a ≤ b then b else a

/-- JavaScript `String.prototype.trim` (strip `\s` from both ends). -/
def jsTrim (t : List Char) : List Char :=
  ((t.dropWhile isWs).reverse.dropWhile isWs).reverse

/-! ### Quality assessment (`assessTranscriptionQuality` and helpers) -/

/-- `checkRepetition` (transcriptionService.js:401-411): splits on `/\s+/`,
counts each word's occurrences, takes the number of **distinct** words whose
count exceeds 3, and divides by the number of tokens. -/
def checkRepetition (t : List Char) : Rat :=
  ((((jsSplitWs t).dedup.filter (fun w => (jsSplitWs t).count w > 3)).length : Rat))
    / (((jsSplitWs t).length : Nat) : Rat)

/-- `checkPunctuation` (transcriptionService.js:416-429): the number of CJK
punctuation marks divided by an expected `length / 50`; the empty text gives
the JavaScript ratio `0/0 = NaN`, which fails every comparison and lands in
the `-10` branch. -/
def checkPunctuation (t : List Char) : Int :=
  if t.length = 0 then -10
  else
    let ratio : Rat := (50 * (t.countP (fun c => isPunct c)) : Rat) / (t.length : Rat)
    if 8/10 < ratio ∧ ratio < 3/2 then 10
    else if 1/2 < ratio ∧ ratio < 2 then 5
    else -10

/-- `checkChineseRatio` (transcriptionService.js:434-439): CJK characters over
non-whitespace characters, `0` on a whitespace-only text. -/
def checkChineseRatio (t : List Char) : Rat :=
  let total := (t.filter (fun c => !isWs c)).length
  if total = 0 then 0 else ((t.countP (fun c => isChineseChar c) : Rat)) / (total : Rat)

/-- The `QualityScore` produced by `assessTranscriptionQuality`. -/
structure QualityScore where
  score : Rat
  confidence : Rat
  repetitionRatio : Rat
  chineseRatio : Rat
deriving DecidableEq, Repr

/-- Penalty applied by the `transcript.length < 10` branch. -/
def shortPenalty (t : List Char) : Rat := if t.length < 10 then 50 else 0

/-- Penalty applied by the `repetitionRatio > 0.3` branch. -/
def repPenalty (t : List Char) : Rat := if checkRepetition t > 3/10 then 30 else 0

/-- Penalty applied by the `chineseRatio < 0.7` branch. -/
def chinesePenalty (t : List Char) : Rat := if checkChineseRatio t < 7/10 then 20 else 0

/-- Raw score before clamping, with all branches of
`assessTranscriptionQuality` applied. -/
def rawScore (t : List Char) : Rat :=
  100 - shortPenalty t - repPenalty t + (checkPunctuation t : Rat) - chinesePenalty t

/-- Raw score before clamping with the repetition branch removed (used to
state that the repetition branch lowers the running score by exactly 30). -/
def rawScoreNoRep (t : List Char) : Rat :=
  100 - shortPenalty t + (checkPunctuation t : Rat) - chinesePenalty t

/-- Raw confidence before clamping. -/
def rawConfidence (t : List Char) : Rat :=
  1 - (if t.length < 10 then 1/2 else 0) - (if checkRepetition t > 3/10 then 3/10 else 0)
    - (if checkChineseRatio t < 7/10 then 2/10 else 0)

/-- Raw confidence before clamping with the repetition branch removed. -/
def rawConfidenceNoRep (t : List Char) : Rat :=
  1 - (if t.length < 10 then 1/2 else 0) - (if checkChineseRatio t < 7/10 then 2/10 else 0)

/-- `assessTranscriptionQuality` (transcriptionService.js:362-396): start at
score 100 / confidence 1.0, apply the shortness, repetition, punctuation and
Chinese-ratio adjustments in order, then clamp to `[0,100]` and `[0,1]`. -/
def assessTranscriptionQuality (t : List Char) : QualityScore :=
  { score := jsMax 0 (jsMin 100 (rawScore t)),
    confidence := jsMax 0 (jsMin 1 (rawConfidence t)),
    repetitionRatio := checkRepetition t,
    chineseRatio := checkChineseRatio t }

/-- The repetition ratio as worded by the spec for claim C4: the fraction of
whitespace-delimited **tokens** that individually occur more than 3 times
(the code instead counts each such word once). -/
def specTokenRepetitionFraction (t : List Char) : Rat :=
  (((jsSplitWs t).filter (fun w => (jsSplitWs t).count w > 3)).length : Rat)
    / (((jsSplitWs t).length : Nat) : Rat)

/-! ### Quality monitor and fallback decision (`qualityMonitor.js`) -/

/-- The quality object passed around job results.  `transcribeAudio` attaches
a full `QualityScore` for single-segment jobs but only `{score, confidence}`
for chunked jobs, so the signal fields are optional here; a missing field
makes the corresponding JavaScript comparison against `undefined` false. -/
structure JobQuality where
  score : Rat
  confidence : Rat
  repetitionRatio : Option Rat
  chineseRatio : Option Rat
deriving DecidableEq, Repr

/-- View a full `QualityScore` as a `JobQuality`. -/
def QualityScore.toJobQuality (q : QualityScore) : JobQuality :=
  { score := q.score, confidence := q.confidence,
    repetitionRatio := some q.repetitionRatio, chineseRatio := some q.chineseRatio }

/-- The part of `QualityMonitor.stats` read by `shouldFallbackToOpenAI`. -/
structure MonitorStats where
  consecutiveFailures : Nat
  averageQuality : Rat
  qualityHistoryLength : Nat
deriving DecidableEq, Repr

/-- Tags for the reason strings pushed by `shouldFallbackToOpenAI`
(qualityMonitor.js:1046-1096), in push order. -/
inductive FallbackReason
  | lowScore
  | lowConfidence
  | highRepetition
  | lowChineseRatio
  | consecutiveFailures
  | systemQualityDecline
deriving DecidableEq, Repr

/-- Result shape of `shouldFallbackToOpenAI`. -/
structure FallbackDecision where
  shouldFallback : Bool
  reasons : List FallbackReason
  confidence : Rat
deriving DecidableEq, Repr

/-- The `reasons` array assembled by `shouldFallbackToOpenAI`, with the
`FALLBACK_CONDITIONS` thresholds inlined.  Comparisons on an absent quality
field are JavaScript comparisons against `undefined` and are false. -/
def fallbackReasons (stats : MonitorStats) (q : JobQuality) : List FallbackReason :=
  (if q.score < 60 then [FallbackReason.lowScore] else []) ++
  (if q.confidence < 6/10 then [FallbackReason.lowConfidence] else []) ++
  (match q.repetitionRatio with
    | some r => if r > 4/10 then [FallbackReason.highRepetition] else []
    | none => []) ++
  (match q.chineseRatio with
    | some r => if r < 5/10 then [FallbackReason.lowChineseRatio] else []
    | none => []) ++
  (if stats.consecutiveFailures ≥ 3 then [FallbackReason.consecutiveFailures] else []) ++
  (if stats.averageQuality < 60 ∧ stats.qualityHistoryLength ≥ 10 then
    [FallbackReason.systemQualityDecline] else [])

/-- `calculateFallbackConfidence` (qualityMonitor.js:1101-1104). -/
def calculateFallbackConfidence (reasonCount : Nat) : Rat :=
  jsMin (9/10) (3/10 + (reasonCount : Rat) * (15/100))

/-- `QualityMonitor.shouldFallbackToOpenAI` (qualityMonitor.js:1046-1096). -/
def shouldFallbackToOpenAI (stats : MonitorStats) (q : JobQuality) : FallbackDecision :=
  let reasons := fallbackReasons stats q
  if 0 < reasons.length then
    { shouldFallback := true, reasons := reasons,
      confidence := calculateFallbackConfidence reasons.length }
  else
    { shouldFallback := false, reasons := [], confidence := 0 }

/-! ### Escalation in the job processor (`server.js`, `processTranscriptionJob`) -/

/-- The `processingMethod` strings of `processTranscriptionJob`. -/
inductive ProcessingMethod
  | fasterWhisper
  | openaiApi
  | openaiApiFallback
  | fasterWhisperConfirmed
  | fasterWhisperFallbackFailed
deriving DecidableEq, Repr

/-- A transcription run's outcome as consumed by the escalation logic:
the transcript together with its quality object. -/
structure TranscriptionRun where
  transcript : List Char
  quality : JobQuality
deriving DecidableEq, Repr

/-- The job record built at the end of `processTranscriptionJob`. -/
structure JobOutcome where
  success : Bool
  transcript : List Char
  quality : JobQuality
  processingMethod : ProcessingMethod
deriving DecidableEq, Repr

/-- The non-`forceOpenAI` tail of `processTranscriptionJob` (server.js:219-279)
after the primary (`transcribeAudio`) run has produced `primary`:  ask the
quality monitor whether to fall back; if so, re-run the whole asset through
OpenAI (`alt` is that run's outcome on the same local file); keep the OpenAI
result only when its score is strictly higher; an OpenAI failure is caught
and the primary result is kept, the job still completing normally. -/
def processTranscriptionJobCore (stats : MonitorStats) (primary : TranscriptionRun)
    (alt : Except (List Char) TranscriptionRun) : JobOutcome :=
  let decision := shouldFallbackToOpenAI stats primary.quality
  if decision.shouldFallback then
    match alt with
    | .ok a =>
      if a.quality.score > primary.quality.score then
        { success := true, transcript := a.transcript, quality := a.quality,
          processingMethod := .openaiApiFallback }
      else
        { success := true, transcript := primary.transcript, quality := primary.quality,
          processingMethod := .fasterWhisperConfirmed }
    | .error _ =>
      { success := true, transcript := primary.transcript, quality := primary.quality,
        processingMethod := .fasterWhisperFallbackFailed }
  else
    { success := true, transcript := primary.transcript, quality := primary.quality,
      processingMethod := .fasterWhisper }

/-! ### Chunker (`smartSplitAudioForiPhone`, `splitByPauses`, `splitByTime`) -/

/-- One fold step of the `splitByPauses` loop: state is the pair
`(currentStart, chunks)`; a cut is made at a silence whose start is at least
`maxChunkDuration` after the current start. -/
def pauseStep (maxChunkDuration : Rat) (st : Rat × List (Rat × Rat))
    (sil : Rat × Rat) : Rat × List (Rat × Rat) :=
  if sil.1 - st.1 ≥ maxChunkDuration then (sil.2, st.2 ++ [(st.1, sil.1)])
  else st

/-- `splitByPauses` (transcriptionService.js:193-229) on the detected silence
intervals: returns `[]` when none were detected (the caller then falls back
to time-based splitting); otherwise cuts at qualifying silence boundaries
and closes with a final chunk up to `duration` when needed.  A chunk is the
pair of its start and end seconds. -/
def splitByPauses (maxChunkDuration duration : Rat)
    (silences : List (Rat × Rat)) : List (Rat × Rat) :=
  if silences = [] then []
  else
    let st := silences.foldl (pauseStep maxChunkDuration) (0, [])
    if st.1 < duration then st.2 ++ [(st.1, duration)] else st.2

/-- `splitByTime` (transcriptionService.js:288-306): `⌈duration / cd⌉` chunks
at multiples of `cd`, the last one truncated to `duration`. -/
def splitByTime (cd duration : Rat) : List (Rat × Rat) :=
  let numChunks := (Int.toNat ⌈duration / cd⌉)
  (List.range numChunks).map (fun i => ((i : Rat) * cd, jsMin (((i : Rat) + 1) * cd) duration))

/-- `smartSplitAudioForiPhone` (transcriptionService.js:168-188): durations up
to `1.5 ×` the configured chunk duration are not split (the whole asset,
`[inputPath]` in the source, is the single chunk `(0, duration)`); otherwise
pause-aligned splitting is attempted, falling back to time splitting. -/
def smartSplitAudioForiPhone (cd duration : Rat) (silences : List (Rat × Rat)) :
    List (Rat × Rat) :=
  if duration ≤ cd * (3/2) then [(0, duration)]
  else
    let pauseDetectionChunks := splitByPauses cd duration silences
    if pauseDetectionChunks ≠ [] then pauseDetectionChunks
    else splitByTime cd duration

/-! ### Per-segment loop traces

The repository contains two per-segment loops: `processAudioChunks`
(transcriptionService.js:514-561), used by `transcribeAudio` of the hosted
service, and the chunked branch of `transcribeAudio` in the alternate
service file (unnamed part_003:976-1020), which preprocesses, transcribes,
appends, cleans up and then sleeps two seconds before the next segment.  The
events of one loop iteration are recorded in execution order. -/

/-- Events of the per-segment loops, indexed by 0-based segment number. -/
inductive SegEv
  | preprocess (i : Nat)
  | transcribe (i : Nat)
  | append (i : Nat)
  | cleanup (i : Nat)
  | delay (i : Nat)
deriving DecidableEq, Repr

/-- Trace of a `for (let i = ...; i < n; i++)` loop whose body emits
`block i`. -/
def loopTrace (block : Nat → List SegEv) (n i : Nat) : List SegEv :=
  if i < n then block i ++ loopTrace block n (i + 1) else []
termination_by n - i
decreasing_by omega

/-- One iteration of the chunked branch of part_003's `transcribeAudio`:
preprocess, transcribe (await), append to `fullTranscript`, delete the
segment's temporary files, and—except after the last segment—wait 2
seconds. -/
def seqBlock (n i : Nat) : List SegEv :=
  [SegEv.preprocess i, SegEv.transcribe i, SegEv.append i, SegEv.cleanup i] ++
    (if i + 1 < n then [SegEv.delay i] else [])

/-- Event trace of part_003's `transcribeAudio` chunk loop on `n` chunks. -/
def transcribeAudioSeqTrace (n : Nat) : List SegEv := loopTrace (seqBlock n) n 0

/-- One iteration of `processAudioChunks`: transcribe (await), push the text
(or placeholder), and delete the chunk file in the `finally` block.  No
inter-segment delay exists in this loop. -/
def chunkBlock (i : Nat) : List SegEv :=
  [SegEv.transcribe i, SegEv.append i, SegEv.cleanup i]

/-- Event trace of `processAudioChunks` on `n` chunks. -/
def processChunksTrace (n : Nat) : List SegEv := loopTrace chunkBlock n 0

/-- `e₁` happens before every occurrence of `e₂` in the trace `tr`. -/
def precedes (e₁ e₂ : SegEv) (tr : List SegEv) : Prop :=
  ∀ pre post, tr = pre ++ e₂ :: post → e₁ ∈ pre

/-! ### Per-segment loop results (`processAudioChunks` and part_003's loop) -/

/-- Outcome of one `transcribeWithOptimizedWhisper` / provider call on a
chunk: the raw transcript on success, the thrown error's message on
failure. -/
inductive ChunkOutcome
  | ok (raw : List Char)
  | fail (msg : List Char)
deriving DecidableEq, Repr

/-- The placeholder `[片段 ⟨i+1⟩ 無法轉錄]` pushed for an empty result. -/
def emptyPlaceholder (i : Nat) : List Char :=
  "[片段 ".toList ++ (Nat.repr (i + 1)).toList ++ " 無法轉錄]".toList

/-- The placeholder `[片段 ⟨i+1⟩ 轉錄失敗: ⟨message⟩]` pushed when a chunk's
transcription throws. -/
def failPlaceholder (i : Nat) (msg : List Char) : List Char :=
  "[片段 ".toList ++ (Nat.repr (i + 1)).toList ++ " 轉錄失敗: ".toList ++ msg ++ [']']

/-- The text entry pushed onto `results` for chunk `i` by one iteration of
`processAudioChunks` (the provider's `.text` is the trimmed raw
transcript). -/
def chunkEntry (i : Nat) : ChunkOutcome → List Char
  | .ok raw => if 0 < (jsTrim raw).length then jsTrim raw else emptyPlaceholder i
  | .fail _msg => failPlaceholder i _msg

/-- The contribution of chunk `i` to `totalScore` (only nonempty successful
chunks contribute; the provider's quality is assessed on the raw
transcript). -/
def chunkScore : ChunkOutcome → Rat
  | .ok raw => if 0 < (jsTrim raw).length then (assessTranscriptionQuality raw).score else 0
  | .fail _ => 0

/-- The contribution of chunk `i` to `totalConfidence`. -/
def chunkConfidence : ChunkOutcome → Rat
  | .ok raw =>
    if 0 < (jsTrim raw).length then (assessTranscriptionQuality raw).confidence else 0
  | .fail _ => 0

/-- The `results` array after the loop, starting from 0-based index `j`. -/
def entriesFrom (j : Nat) : List ChunkOutcome → List (List Char)
  | [] => []
  | o :: rest => chunkEntry j o :: entriesFrom (j + 1) rest

/-- Result of `processAudioChunks`: the pushed texts plus the averaged
quality. -/
structure ChunksResult where
  texts : List (List Char)
  score : Rat
  confidence : Rat
deriving DecidableEq, Repr

/-- `processAudioChunks` (transcriptionService.js:514-561) as a function of
the per-chunk provider outcomes: every chunk contributes exactly one entry
(text, empty-placeholder or failure-placeholder), and the job's quality is
`totalScore / results.length` (0 on an empty list). -/
def processAudioChunks (outcomes : List ChunkOutcome) : ChunksResult :=
  let texts := entriesFrom 0 outcomes
  let totalScore := (outcomes.map chunkScore).sum
  let totalConfidence := (outcomes.map chunkConfidence).sum
  { texts := texts,
    score := if 0 < texts.length then totalScore / (texts.length : Rat) else 0,
    confidence :=
      if 0 < texts.length then totalConfidence / (texts.length : Rat) else 0 }

/-- `results.join('\n\n')`. -/
def joinChunks (texts : List (List Char)) : List Char :=
  List.intercalate ['\n', '\n'] texts

/-- The chunked branch of part_003's `transcribeAudio` as a function of the
per-chunk provider outcomes: `fullTranscript += chunkTranscript + ' '`, and a
thrown chunk error propagates out of the loop (there is no per-iteration
`catch`), failing the whole job. -/
def seqChunkLoopRun : List Char → List ChunkOutcome → Except (List Char) (List Char)
  | acc, [] => .ok acc
  | acc, .ok raw :: rest => seqChunkLoopRun (acc ++ jsTrim raw ++ [' ']) rest
  | _, .fail msg :: _ => .error msg

/-- Entry point for the part_003 loop model. -/
def transcribeAudioSeqRun (outcomes : List ChunkOutcome) : Except (List Char) (List Char) :=
  seqChunkLoopRun [] outcomes

/-! ### Sheet-row operations (`main.gs`, `sheetsService.gs`) -/

/-- The Master_Log columns touched by the modelled operations. -/
structure SheetRow where
  transcriptText : List Char
  transcriptionStatus : List Char
  dataStatus : List Char
  aiAnalysisOutput : List Char
  retryCount : Nat
deriving DecidableEq, Repr

/-- `incrementRetryCount` (sheetsService.gs:105-118). -/
def incrementRetryCount (r : SheetRow) : SheetRow :=
  { r with retryCount := r.retryCount + 1 }

/-- `markAsError` (sheetsService.gs:138-149): writes the error status (the
message truncated to 400 characters; the appended timestamp is abstracted by
the `time` argument) and increments the retry count. -/
def markAsError (msg time : List Char) (r : SheetRow) : SheetRow :=
  incrementRetryCount
    { r with dataStatus :=
        "Error: ".toList ++ msg.take 400 ++ " (".toList ++ time ++ [')'] }

/-- `markAsProcessing` (sheetsService.gs:124-133). -/
def markAsProcessing (r : SheetRow) : SheetRow :=
  { r with dataStatus := "AI Analysis In Progress".toList }

/-- `markTranscriptionStatus` (main.gs:682-699); `time` abstracts the
`toLocaleString` timestamp. -/
def markTranscriptionStatus (status time : List Char) (r : SheetRow) : SheetRow :=
  { r with transcriptionStatus := status,
           dataStatus := status ++ " at ".toList ++ time }

/-- `updateTranscriptionResult` (main.gs:354-394), the webhook path run when
the transcription service reports a result: writes the transcript, the
status, the ready-for-analysis data status, and **resets the retry count to
0**. -/
def updateTranscriptionResult (text status : List Char) (r : SheetRow) : SheetRow :=
  { r with transcriptText := text,
           transcriptionStatus := status,
           dataStatus := "Transcription Completed - Ready for AI Analysis".toList,
           retryCount := 0 }

/-- The per-row update of `batchUpdateAnalysisResults`
(sheetsService.gs:73-100), restricted to the modelled columns. -/
def batchUpdateAnalysisRow (analysisOutput : List Char) (r : SheetRow) : SheetRow :=
  { r with aiAnalysisOutput := analysisOutput,
           dataStatus := "AI Analysis Completed".toList }

/-! ### Single-flight queue processor (`smartAudioQueueProcessor`, main.gs:196-240)

The script lock of Apps Script `LockService` is modelled as an atomic
test-and-set: `tryLock` either acquires a free lock or reports busy (the
bounded 10-second wait is abstracted into the failure outcome).  Two
invocations of `smartAudioQueueProcessor` interleave with the webhook
completion path and with new rows being appended. -/

/-- Transcription_Status values relevant to the queue. -/
inductive TrStatus
  | pending
  | inProgress
  | completed
  | failed
deriving DecidableEq, Repr

/-- `analyzeQueueStatus(values).inProgress > 0`. -/
def hasInProgress (rows : List TrStatus) : Bool :=
  0 < rows.count TrStatus.inProgress

/-- `findNextPendingTask` + `processNextTask`: mark the first pending row
`In Progress` (no-op when none is pending, which the caller's
`queueStats.pending > 0` guard ensures cannot be reached with work to do). -/
def markFirstPending : List TrStatus → List TrStatus
  | [] => []
  | TrStatus.pending :: rest => TrStatus.inProgress :: rest
  | st :: rest => st :: markFirstPending rest

/-- Program counter of one `smartAudioQueueProcessor` invocation. -/
inductive PPC
  | idle
  | inCS0
  | inCS1 (sawInProgress : Bool)
  | finished
  | skippedBusy
deriving DecidableEq, Repr

/-- Is the invocation inside the lock-protected critical section? -/
def PPC.inCS : PPC → Prop
  | .inCS0 => True
  | .inCS1 _ => True
  | _ => False

/-- Global state: the script lock, two processor invocations, and the
Transcription_Status column of the sheet. -/
structure SysState where
  lockHeld : Bool
  p1 : PPC
  p2 : PPC
  rows : List TrStatus
deriving DecidableEq, Repr

/-- Interleaved small-step semantics of two `smartAudioQueueProcessor`
invocations (steps `acquire*`, `busy*`, `check*`, `act*`) together with the
environment (webhook completion `webhookComplete`, form sync appending a
pending row `appendPending`).  `tryLock` is atomic test-and-set; `check`
reads `analyzeQueueStatus`; `act` either skips (something already in
progress) or marks the first pending row and in either case releases the
lock. -/
inductive Step : SysState → SysState → Prop
  | acquire1 (s : SysState) (h1 : s.p1 = PPC.idle) (h2 : s.lockHeld = false) :
      Step s { s with lockHeld := true, p1 := PPC.inCS0 }
  | busy1 (s : SysState) (h1 : s.p1 = PPC.idle) (h2 : s.lockHeld = true) :
      Step s { s with p1 := PPC.skippedBusy }
  | check1 (s : SysState) (h : s.p1 = PPC.inCS0) :
      Step s { s with p1 := PPC.inCS1 (hasInProgress s.rows) }
  | act1 (s : SysState) (b : Bool) (h : s.p1 = PPC.inCS1 b) :
      Step s { s with p1 := PPC.finished, lockHeld := false,
                      rows := if b then s.rows else markFirstPending s.rows }
  | acquire2 (s : SysState) (h1 : s.p2 = PPC.idle) (h2 : s.lockHeld = false) :
      Step s { s with lockHeld := true, p2 := PPC.inCS0 }
  | busy2 (s : SysState) (h1 : s.p2 = PPC.idle) (h2 : s.lockHeld = true) :
      Step s { s with p2 := PPC.skippedBusy }
  | check2 (s : SysState) (h : s.p2 = PPC.inCS0) :
      Step s { s with p2 := PPC.inCS1 (hasInProgress s.rows) }
  | act2 (s : SysState) (b : Bool) (h : s.p2 = PPC.inCS1 b) :
      Step s { s with p2 := PPC.finished, lockHeld := false,
                      rows := if b then s.rows else markFirstPending s.rows }
  | webhookComplete (s : SysState) (i : Nat) (h : s.rows.get? i = some TrStatus.inProgress) :
      Step s { s with rows := s.rows.set i TrStatus.completed }
  | appendPending (s : SysState) :
      Step s { s with rows := s.rows ++ [TrStatus.pending] }

/-- Reachability under `Step`. -/
inductive Reachable (s₀ : SysState) : SysState → Prop
  | refl : Reachable s₀ s₀
  | tail {s s' : SysState} : Reachable s₀ s → Step s s' → Reachable s₀ s'

/-- Initial states: both invocations yet to run, lock free, at most one job
in progress on the sheet. -/
def InitState (s : SysState) : Prop :=
  s.p1 = PPC.idle ∧ s.p2 = PPC.idle ∧ s.lockHeld = false ∧
    s.rows.count TrStatus.inProgress ≤ 1

/-- Inductive invariant of the single-flight system: the lock covers the
critical sections, critical sections are mutually exclusive, at most one job
is marked `In Progress`, and an invocation that observed an idle queue holds
that knowledge truthfully while still inside its critical section. -/
def MutexInv (s : SysState) : Prop :=
  (s.p1.inCS ∨ s.p2.inCS → s.lockHeld = true) ∧
  ¬(s.p1.inCS ∧ s.p2.inCS) ∧
  s.rows.count TrStatus.inProgress ≤ 1 ∧
  (s.p1 = PPC.inCS1 false → s.rows.count TrStatus.inProgress = 0) ∧
  (s.p2 = PPC.inCS1 false → s.rows.count TrStatus.inProgress = 0)

end SalesAudio

namespace SalesAudio

/-! ## Claim theorems -/

/-- C8: applying the quality assessor to the empty string returns a score of
at most 50 and a confidence of at most 0.5 (concretely, score 20 and
confidence 0.3: the shortness, punctuation and Chinese-ratio penalties all
apply). -/
theorem claim_C8 :
    (assessTranscriptionQuality "".toList).score ≤ 50 ∧
    (assessTranscriptionQuality "".toList).confidence ≤ 1/2 := by
  norm_num +decide [assessTranscriptionQuality, rawScore, rawConfidence, shortPenalty,
    repPenalty, chinesePenalty, checkRepetition, checkPunctuation, checkChineseRatio,
    jsSplitWs, splitWsGo, isWs, isPunct, isChineseChar, jsMin, jsMax]

/-- C5: for every quality input with `score < 60`, `shouldFallbackToOpenAI`
recommends escalation, regardless of the other quality fields and of the
recorded monitor statistics. -/
theorem claim_C5 (stats : MonitorStats) (q : JobQuality) (h : q.score < 60) :
    (shouldFallbackToOpenAI stats q).shouldFallback = true := by
  have hlen : 0 < (fallbackReasons stats q).length := by
    unfold fallbackReasons
    rw [if_pos h]
    simp
  simp only [shouldFallbackToOpenAI]
  rw [if_pos hlen]

/-- Witness for C5 at a concrete low-scoring quality input and concrete
monitor statistics. -/
theorem claim_C5_witness :
    (⟨40, 1, none, none⟩ : JobQuality).score < 60 ∧
    (shouldFallbackToOpenAI ⟨0, 100, 0⟩ ⟨40, 1, none, none⟩).shouldFallback = true :=
  ⟨by norm_num, claim_C5 _ _ (by norm_num)⟩

/-- C7: every probed duration at most 1.5 times the configured chunk duration
yields a single chunk spanning the whole asset, whatever silences were
detected. -/
theorem claim_C7 (cd duration : Rat) (silences : List (Rat × Rat))
    (h : duration ≤ cd * (3/2)) :
    smartSplitAudioForiPhone cd duration silences = [(0, duration)] := by
  unfold smartSplitAudioForiPhone
  rw [if_pos h]

/-- Witness for C7: a 300-second asset with the configured 720-second chunk
duration is returned as one whole-asset chunk. -/
theorem claim_C7_witness :
    (300 : Rat) ≤ 720 * (3/2) ∧
    smartSplitAudioForiPhone 720 300 [(5, 7)] = [(0, 300)] :=
  ⟨by norm_num, claim_C7 _ _ _ (by norm_num)⟩

/-- Counterexample for C9: the webhook success path
(`updateTranscriptionResult`) is an automatic operation that resets a
positive retry count to 0, so `retryCount` is not monotone across automatic
operations. -/
theorem claim_C9_counterexample :
    (updateTranscriptionResult "hello".toList "Completed".toList
        ⟨[], "In Progress".toList, [], [], 2⟩).retryCount = 0 ∧
    (updateTranscriptionResult "hello".toList "Completed".toList
        ⟨[], "In Progress".toList, [], [], 2⟩).retryCount
      < (⟨[], "In Progress".toList, [], [], 2⟩ : SheetRow).retryCount :=
  ⟨rfl, by decide⟩

/-- C9 as amended: the error path (`markAsError`, via `incrementRetryCount`)
is the only operation that increases `retryCount`, and it increases it by
exactly 1; the remaining automatic row operations preserve it — except the
webhook result path `updateTranscriptionResult`, which automatically resets
it to 0 whenever a transcription result is reported. -/
theorem claim_C9_amended (r : SheetRow) (msg time status text analysis : List Char) :
    (markAsError msg time r).retryCount = r.retryCount + 1 ∧
    (incrementRetryCount r).retryCount = r.retryCount + 1 ∧
    (markAsProcessing r).retryCount = r.retryCount ∧
    (markTranscriptionStatus status time r).retryCount = r.retryCount ∧
    (batchUpdateAnalysisRow analysis r).retryCount = r.retryCount ∧
    (updateTranscriptionResult text status r).retryCount = 0 :=
  ⟨rfl, rfl, rfl, rfl, rfl, rfl⟩

end SalesAudio

namespace SalesAudio

/-- Each distinct word counted by `checkRepetition` occurs at least 4 times,
so four times the number of such words is at most the token count. -/
theorem four_mul_length_le_sum {α : Type _} (l : List α) (f : α → Nat)
    (h : ∀ x ∈ l, 4 ≤ f x) : 4 * l.length ≤ (l.map f).sum := by
  induction l with
  | nil => simp
  | cons a t ih =>
    have ha := h a (List.mem_cons_self a t)
    have ht := ih fun x hx => h x (List.mem_cons_of_mem a hx)
    simp only [List.length_cons, List.map_cons, List.sum_cons]
    omega

/-- The two `BEq (List Char)` instances (elementwise `==` and the one derived
from decidable equality) produce the same counts. -/
theorem countBEq (x : List Char) (l : List (List Char)) :
    l.count x = @List.count (List Char) instBEqOfDecidableEq x l := by
  induction l with
  | nil => rfl
  | cons b tl ih =>
    rw [List.count_cons, @List.count_cons (List Char) instBEqOfDecidableEq, ih]
    by_cases hx : x = b
    · subst hx
      simp
    · simp [hx]

/-- The ratio computed by `checkRepetition` can never exceed `1/4`: each
distinct word it counts occupies at least four of the tokens. -/
theorem checkRepetition_le_quarter (t : List Char) : checkRepetition t ≤ 1/4 := by
  rw [checkRepetition]
  generalize jsSplitWs t = words
  have hbr : words.dedup.filter (fun w => words.count w > 3)
      = words.dedup.filter
          (fun w => 3 < @List.count (List Char) instBEqOfDecidableEq w words) := by
    apply List.filter_congr
    intro x _
    simp only [gt_iff_lt, countBEq]
  rw [hbr]
  have hcount : ∀ x ∈ words.dedup.filter
      (fun w => 3 < @List.count (List Char) instBEqOfDecidableEq w words),
      4 ≤ @List.count (List Char) instBEqOfDecidableEq x words := by
    intro x hx
    have := (List.mem_filter.mp hx).2
    simp only [decide_eq_true_eq] at this
    omega
  have h4 : 4 * (words.dedup.filter
      (fun w => 3 < @List.count (List Char) instBEqOfDecidableEq w words)).length
      ≤ words.length := by
    calc 4 * (words.dedup.filter
        (fun w => 3 < @List.count (List Char) instBEqOfDecidableEq w words)).length
        ≤ ((words.dedup.filter
            (fun w => 3 < @List.count (List Char) instBEqOfDecidableEq w words)).map
              fun x => @List.count (List Char) instBEqOfDecidableEq x words).sum :=
          four_mul_length_le_sum _ _ hcount
      _ = words.countP
            (fun w => 3 < @List.count (List Char) instBEqOfDecidableEq w words) :=
          List.sum_map_count_dedup_filter_eq_countP _ words
      _ ≤ words.length := List.countP_le_length _
  generalize hd : (words.dedup.filter
      (fun w => 3 < @List.count (List Char) instBEqOfDecidableEq w words)).length = d at h4
  rcases Nat.eq_zero_or_pos words.length with h0 | hpos
  · have hdz : d = 0 := by omega
    simp [hdz, h0]
  · rw [div_le_div_iff₀ (by exact_mod_cast hpos) (by norm_num : (0 : Rat) < 4)]
    have hcast : ((4 * d : Nat) : Rat) ≤ ((words.length : Nat) : Rat) := by
      exact_mod_cast h4
    push_cast at hcast ⊢
    linarith

/-- Counterexample for C4 at the text `"a a a a"`: the code's
`repetitionRatio` is `1/4` (one distinct repeated word over four tokens),
while the fraction of tokens occurring more than 3 times is `1`; moreover
that token fraction exceeds `0.3` and yet no 30-point reduction happens. -/
theorem claim_C4_counterexample :
    (assessTranscriptionQuality "a a a a".toList).repetitionRatio = 1/4 ∧
    specTokenRepetitionFraction "a a a a".toList = 1 ∧
    (assessTranscriptionQuality "a a a a".toList).repetitionRatio
      ≠ specTokenRepetitionFraction "a a a a".toList ∧
    specTokenRepetitionFraction "a a a a".toList > 3/10 ∧
    rawScore "a a a a".toList = rawScoreNoRep "a a a a".toList := by
  norm_num +decide [assessTranscriptionQuality, specTokenRepetitionFraction, rawScore,
    rawScoreNoRep, shortPenalty, repPenalty, chinesePenalty, checkRepetition,
    checkPunctuation, checkChineseRatio, jsSplitWs, splitWsGo, isWs, isPunct,
    isChineseChar, jsMin, jsMax]

/-- C4 as amended: `repetitionRatio` is the number of **distinct**
whitespace-delimited words occurring more than 3 times divided by the token
count.  That ratio is bounded by `1/4`, so the `> 0.3` penalty branch of
`assessTranscriptionQuality`, though present in the code, can never fire:
score and confidence always equal their values with the repetition branch
removed. -/
theorem claim_C4_amended (t : List Char) :
    (assessTranscriptionQuality t).repetitionRatio
        = ((((jsSplitWs t).dedup.filter
            (fun w => (jsSplitWs t).count w > 3)).length : Rat))
          / (((jsSplitWs t).length : Nat) : Rat) ∧
    (assessTranscriptionQuality t).repetitionRatio ≤ 1/4 ∧
    rawScore t = rawScoreNoRep t ∧
    rawConfidence t = rawConfidenceNoRep t ∧
    (assessTranscriptionQuality t).score = jsMax 0 (jsMin 100 (rawScoreNoRep t)) ∧
    (assessTranscriptionQuality t).confidence
        = jsMax 0 (jsMin 1 (rawConfidenceNoRep t)) := by
  have hq := checkRepetition_le_quarter t
  have hno : ¬ checkRepetition t > 3/10 := by
    intro hgt
    have : (1 : Rat)/4 < checkRepetition t := lt_of_lt_of_le (by norm_num) hgt.le
    exact absurd (lt_of_lt_of_le this hq) (lt_irrefl _)
  have hscore : rawScore t = rawScoreNoRep t := by
    unfold rawScore rawScoreNoRep repPenalty
    rw [if_neg hno]
    ring
  have hconf : rawConfidence t = rawConfidenceNoRep t := by
    unfold rawConfidence rawConfidenceNoRep
    rw [if_neg hno]
    ring
  refine ⟨rfl, hq, hscore, hconf, ?_, ?_⟩
  · show jsMax 0 (jsMin 100 (rawScore t)) = jsMax 0 (jsMin 100 (rawScoreNoRep t))
    rw [hscore]
  · show jsMax 0 (jsMin 1 (rawConfidence t)) = jsMax 0 (jsMin 1 (rawConfidenceNoRep t))
    rw [hconf]

/-- C6: when the monitor recommends escalation, the job re-runs through the
alternate provider (on the same whole local file) and keeps the
strictly-higher-scoring result: a strictly better OpenAI run replaces the
primary result, a tie or worse keeps the primary, and an OpenAI failure is
caught, keeping the primary result with the job still completing
(`success = true`). -/
theorem claim_C6 (stats : MonitorStats) (primary : TranscriptionRun)
    (alt : Except (List Char) TranscriptionRun)
    (hesc : (shouldFallbackToOpenAI stats primary.quality).shouldFallback = true) :
    (∀ a, alt = Except.ok a → a.quality.score > primary.quality.score →
      processTranscriptionJobCore stats primary alt
        = { success := true, transcript := a.transcript, quality := a.quality,
            processingMethod := ProcessingMethod.openaiApiFallback }) ∧
    (∀ a, alt = Except.ok a → ¬ a.quality.score > primary.quality.score →
      processTranscriptionJobCore stats primary alt
        = { success := true, transcript := primary.transcript,
            quality := primary.quality,
            processingMethod := ProcessingMethod.fasterWhisperConfirmed }) ∧
    (∀ e, alt = Except.error e →
      processTranscriptionJobCore stats primary alt
        = { success := true, transcript := primary.transcript,
            quality := primary.quality,
            processingMethod := ProcessingMethod.fasterWhisperFallbackFailed }) := by
  refine ⟨?_, ?_, ?_⟩
  · intro a ha hgt
    subst ha
    simp [processTranscriptionJobCore, hesc, hgt]
  · intro a ha hngt
    subst ha
    simp [processTranscriptionJobCore, hesc, hngt]
  · intro e he
    subst he
    simp [processTranscriptionJobCore, hesc]

/-- Witness for C6: a primary run scoring 40 triggers escalation; an OpenAI
run scoring 75 becomes the job result. -/
theorem claim_C6_witness :
    (shouldFallbackToOpenAI ⟨0, 100, 0⟩
        (⟨"舊".toList, ⟨40, 1, none, none⟩⟩ : TranscriptionRun).quality).shouldFallback
      = true ∧
    processTranscriptionJobCore ⟨0, 100, 0⟩ ⟨"舊".toList, ⟨40, 1, none, none⟩⟩
        (Except.ok ⟨"新".toList, ⟨75, 1, none, none⟩⟩)
      = { success := true, transcript := "新".toList, quality := ⟨75, 1, none, none⟩,
          processingMethod := ProcessingMethod.openaiApiFallback } := by
  have hesc : (shouldFallbackToOpenAI ⟨0, 100, 0⟩
      (⟨"舊".toList, ⟨40, 1, none, none⟩⟩ : TranscriptionRun).quality).shouldFallback
        = true := by
    norm_num [shouldFallbackToOpenAI, fallbackReasons]
  exact ⟨hesc, (claim_C6 _ _ _ hesc).1 _ rfl (by norm_num)⟩

/-- `entriesFrom` produces one entry per outcome. -/
theorem entriesFrom_length (j : Nat) (outcomes : List ChunkOutcome) :
    (entriesFrom j outcomes).length = outcomes.length := by
  induction outcomes generalizing j with
  | nil => rfl
  | cons o rest ih => simp [entriesFrom, ih]

/-- The entry at position `i` of `entriesFrom j` is the processed outcome
`i`, carrying the absolute index `j + i`. -/
theorem entriesFrom_getElem? (j i : Nat) (outcomes : List ChunkOutcome) :
    (entriesFrom j outcomes)[i]? = (outcomes[i]?).map (fun o => chunkEntry (j + i) o) := by
  induction outcomes generalizing j i with
  | nil => simp [entriesFrom]
  | cons o rest ih =>
    cases i with
    | zero => simp [entriesFrom]
    | succ k =>
      have harith : j + 1 + k = j + (k + 1) := by omega
      simp [entriesFrom, ih (j + 1) k, harith]

/-- C2 as amended, for `processAudioChunks` (the loop used by the hosted
service's `transcribeAudio`): a chunk whose transcription throws contributes
exactly the failure placeholder at its position, every chunk contributes
exactly one entry, and the loop runs to completion over all chunks. -/
theorem claim_C2_amended (outcomes : List ChunkOutcome) (i : Nat) (msg : List Char)
    (hfail : outcomes[i]? = some (ChunkOutcome.fail msg)) :
    (processAudioChunks outcomes).texts[i]? = some (failPlaceholder i msg) ∧
    (processAudioChunks outcomes).texts.length = outcomes.length ∧
    (∀ k o, outcomes[k]? = some o →
      (processAudioChunks outcomes).texts[k]? = some (chunkEntry k o)) := by
  refine ⟨?_, ?_, ?_⟩
  · show (entriesFrom 0 outcomes)[i]? = some (failPlaceholder i msg)
    rw [entriesFrom_getElem?, hfail]
    simp [chunkEntry]
  · show (entriesFrom 0 outcomes).length = outcomes.length
    exact entriesFrom_length 0 outcomes
  · intro k o hk
    show (entriesFrom 0 outcomes)[k]? = some (chunkEntry k o)
    rw [entriesFrom_getElem?, hk]
    simp

/-- Witness for C2 at a concrete three-chunk job whose middle chunk times
out. -/
theorem claim_C2_witness :
    ([ChunkOutcome.ok "今天天氣很好".toList,
      ChunkOutcome.fail "timeout".toList,
      ChunkOutcome.ok "謝謝".toList] : List ChunkOutcome)[1]?
      = some (ChunkOutcome.fail "timeout".toList) ∧
    (processAudioChunks [ChunkOutcome.ok "今天天氣很好".toList,
      ChunkOutcome.fail "timeout".toList,
      ChunkOutcome.ok "謝謝".toList]).texts[1]?
      = some (failPlaceholder 1 "timeout".toList) ∧
    (processAudioChunks [ChunkOutcome.ok "今天天氣很好".toList,
      ChunkOutcome.fail "timeout".toList,
      ChunkOutcome.ok "謝謝".toList]).texts.length = 3 := by
  have h := claim_C2_amended [ChunkOutcome.ok "今天天氣很好".toList,
    ChunkOutcome.fail "timeout".toList,
    ChunkOutcome.ok "謝謝".toList] 1 "timeout".toList rfl
  exact ⟨rfl, h.1, h.2.1⟩

/-- Counterexample for C2 in the other cited per-segment loop (part_003's
`transcribeAudio`): a segment failure is not caught there; it propagates and
aborts the whole job, so no placeholder is recorded and no completed
transcript exists. -/
theorem claim_C2_counterexample :
    transcribeAudioSeqRun [ChunkOutcome.ok "好的".toList,
      ChunkOutcome.fail "boom".toList, ChunkOutcome.ok "再見".toList]
      = Except.error "boom".toList ∧
    ∀ t, transcribeAudioSeqRun [ChunkOutcome.ok "好的".toList,
      ChunkOutcome.fail "boom".toList, ChunkOutcome.ok "再見".toList]
      ≠ Except.ok t := by
  refine ⟨rfl, ?_⟩
  intro t h
  rw [show transcribeAudioSeqRun [ChunkOutcome.ok "好的".toList,
    ChunkOutcome.fail "boom".toList, ChunkOutcome.ok "再見".toList]
      = Except.error "boom".toList from rfl] at h
  exact Except.noConfusion h

/-- Counterexample for C3: for the two-chunk job with raw transcripts `"四"`
and `"q"`, the job's reported quality score is the per-chunk average 30,
while assessing the assembled concatenated transcript would give 20. -/
theorem claim_C3_counterexample :
    (processAudioChunks [ChunkOutcome.ok "四".toList,
      ChunkOutcome.ok "q".toList]).score = 30 ∧
    (assessTranscriptionQuality (joinChunks
        (processAudioChunks [ChunkOutcome.ok "四".toList,
          ChunkOutcome.ok "q".toList]).texts)).score = 20 ∧
    ((30 : Rat) ≠ 20) := by
  have hjoin : joinChunks (processAudioChunks [ChunkOutcome.ok "四".toList,
      ChunkOutcome.ok "q".toList]).texts = ['四', '\n', '\n', 'q'] := by decide
  refine ⟨?_, ?_, by norm_num⟩
  · norm_num +decide [processAudioChunks, entriesFrom, chunkEntry, chunkScore,
      chunkConfidence, assessTranscriptionQuality, rawScore, rawConfidence, shortPenalty,
      repPenalty, chinesePenalty, checkRepetition, checkPunctuation, checkChineseRatio,
      jsSplitWs, splitWsGo, jsTrim, isWs, isPunct, isChineseChar, jsMin, jsMax]
  · rw [hjoin]
    norm_num +decide [assessTranscriptionQuality, rawScore, rawConfidence, shortPenalty,
      repPenalty, chinesePenalty, checkRepetition, checkPunctuation, checkChineseRatio,
      jsSplitWs, splitWsGo, isWs, isPunct, isChineseChar, jsMin, jsMax]

/-- All entries of an all-successful, all-nonempty chunk list are the trimmed
raw transcripts. -/
theorem entriesFrom_map_ok (j : Nat) (raws : List (List Char))
    (hne : ∀ r ∈ raws, 0 < (jsTrim r).length) :
    entriesFrom j (raws.map ChunkOutcome.ok) = raws.map jsTrim := by
  induction raws generalizing j with
  | nil => rfl
  | cons r rest ih =>
    have hr := hne r (List.mem_cons_self r rest)
    have hrest := fun x hx => hne x (List.mem_cons_of_mem r hx)
    simp [entriesFrom, chunkEntry, if_pos hr, ih (j + 1) hrest]

/-- C3 as amended: for a fully successful multi-chunk job, the reported
quality is the arithmetic mean of the per-chunk assessments of the raw chunk
transcripts (the texts being the trimmed raw transcripts), not an assessment
of the concatenated transcript. -/
theorem claim_C3_amended (raws : List (List Char))
    (hne : ∀ r ∈ raws, 0 < (jsTrim r).length) :
    (processAudioChunks (raws.map ChunkOutcome.ok)).texts = raws.map jsTrim ∧
    (processAudioChunks (raws.map ChunkOutcome.ok)).score
      = ((raws.map (fun r => (assessTranscriptionQuality r).score)).sum)
          / ((raws.length : Nat) : Rat) ∧
    (processAudioChunks (raws.map ChunkOutcome.ok)).confidence
      = ((raws.map (fun r => (assessTranscriptionQuality r).confidence)).sum)
          / ((raws.length : Nat) : Rat) := by
  have htexts : entriesFrom 0 (raws.map ChunkOutcome.ok) = raws.map jsTrim :=
    entriesFrom_map_ok 0 raws hne
  have hscoremap : (raws.map ChunkOutcome.ok).map chunkScore
      = raws.map (fun r => (assessTranscriptionQuality r).score) := by
    rw [List.map_map]
    apply List.map_congr_left
    intro r hr
    simp [Function.comp, chunkScore, if_pos (hne r hr)]
  have hconfmap : (raws.map ChunkOutcome.ok).map chunkConfidence
      = raws.map (fun r => (assessTranscriptionQuality r).confidence) := by
    rw [List.map_map]
    apply List.map_congr_left
    intro r hr
    simp [Function.comp, chunkConfidence, if_pos (hne r hr)]
  refine ⟨htexts, ?_, ?_⟩
  · show (if 0 < (entriesFrom 0 (raws.map ChunkOutcome.ok)).length
        then ((raws.map ChunkOutcome.ok).map chunkScore).sum
          / ((entriesFrom 0 (raws.map ChunkOutcome.ok)).length : Rat) else 0) = _
    rw [htexts, hscoremap]
    cases raws with
    | nil => simp
    | cons r rest => simp
  · show (if 0 < (entriesFrom 0 (raws.map ChunkOutcome.ok)).length
        then ((raws.map ChunkOutcome.ok).map chunkConfidence).sum
          / ((entriesFrom 0 (raws.map ChunkOutcome.ok)).length : Rat) else 0) = _
    rw [htexts, hconfmap]
    cases raws with
    | nil => simp
    | cons r rest => simp

/-- Witness for C3's amended statement at the two-chunk job of the
counterexample. -/
theorem claim_C3_witness :
    (∀ r ∈ ["四".toList, "q".toList], 0 < (jsTrim r).length) ∧
    (processAudioChunks [ChunkOutcome.ok "四".toList,
      ChunkOutcome.ok "q".toList]).score
      = (((["四".toList, "q".toList].map
          (fun r => (assessTranscriptionQuality r).score)).sum) / 2) := by
  have h := claim_C3_amended ["四".toList, "q".toList] (by decide)
  exact ⟨by decide, h.2.1⟩

/-- Unfolding `loopTrace` while iterations remain. -/
theorem loopTrace_pos (block : Nat → List SegEv) (n i : Nat) (h : i < n) :
    loopTrace block n i = block i ++ loopTrace block n (i + 1) := by
  rw [loopTrace]
  simp [h]

/-- Unfolding `loopTrace` once the loop is done. -/
theorem loopTrace_neg (block : Nat → List SegEv) (n i : Nat) (h : ¬ i < n) :
    loopTrace block n i = [] := by
  rw [loopTrace]
  simp [h]

/-- If each block mentions only its own transcription event, iterations `≥ i`
contain no transcription event with index `< i`. -/
theorem transcribe_not_mem_loopTrace (block : Nat → List SegEv)
    (hb : ∀ j k, SegEv.transcribe k ∈ block j → k = j)
    {n i k : Nat} (hk : k < i) : SegEv.transcribe k ∉ loopTrace block n i := by
  intro hmem
  by_cases h : i < n
  · rw [loopTrace_pos block n i h] at hmem
    rcases List.mem_append.mp hmem with h1 | h2
    · exact absurd (hb i k h1) (by omega)
    · exact transcribe_not_mem_loopTrace block hb (by omega : k < i + 1) h2
  · rw [loopTrace_neg block n i h] at hmem
    exact absurd hmem (List.not_mem_nil _)
termination_by n - i
decreasing_by omega

/-- Two splittings of the same list at the same element coincide when the
element occurs only once. -/
theorem unique_middle {α : Type _} {a : α} :
    ∀ {l₁ r₁ l₂ r₂ : List α}, l₁ ++ a :: r₁ = l₂ ++ a :: r₂ → a ∉ l₁ → a ∉ r₁ →
      l₁ = l₂ ∧ r₁ = r₂ := by
  intro l₁
  induction l₁ with
  | nil =>
    intro r₁ l₂ r₂ heq h1 h2
    cases l₂ with
    | nil => simpa using heq
    | cons b t =>
      simp only [List.nil_append, List.cons_append, List.cons.injEq] at heq
      obtain ⟨hab, hr⟩ := heq
      exact absurd (hr ▸ List.mem_append_right t (List.mem_cons_self a r₂)) h2
  | cons b t ih =>
    intro r₁ l₂ r₂ heq h1 h2
    cases l₂ with
    | nil =>
      simp only [List.cons_append, List.nil_append, List.cons.injEq] at heq
      obtain ⟨hab, _⟩ := heq
      exact absurd (hab ▸ List.mem_cons_self b t) h1
    | cons c t₂ =>
      simp only [List.cons_append, List.cons.injEq] at heq
      obtain ⟨hbc, hrest⟩ := heq
      have h1' : a ∉ t := fun hm => h1 (List.mem_cons_of_mem b hm)
      obtain ⟨hl, hr⟩ := ih hrest h1' h2
      subst hbc
      exact ⟨by rw [hl], hr⟩

/-- Decomposition of a loop trace at the unique transcription event of
iteration `i`: everything emitted by earlier iterations lies strictly before
it. -/
theorem loopTrace_split (block : Nat → List SegEv)
    (hb : ∀ j k, SegEv.transcribe k ∈ block j → k = j)
    (hsplit : ∀ m, ∃ bp bq, block m = bp ++ SegEv.transcribe m :: bq ∧
        SegEv.transcribe m ∉ bp ∧ SegEv.transcribe m ∉ bq) :
    ∀ {n i j : Nat}, j ≤ i → i < n →
    ∃ pre post, loopTrace block n j = pre ++ SegEv.transcribe i :: post ∧
      (∀ m, j ≤ m → m < i → ∀ e ∈ block m, e ∈ pre) ∧
      SegEv.transcribe i ∉ pre ∧ SegEv.transcribe i ∉ post := by
  intro n i j hj hi
  have hjn : j < n := lt_of_le_of_lt hj hi
  rw [loopTrace_pos block n j hjn]
  rcases eq_or_lt_of_le hj with heq | hlt
  · subst heq
    obtain ⟨bp, bq, hbk, hnp, hnq⟩ := hsplit j
    refine ⟨bp, bq ++ loopTrace block n (j + 1), ?_, ?_, hnp, ?_⟩
    · rw [hbk, List.append_assoc, List.cons_append]
    · intro m hm1 hm2 e he
      omega
    · intro hmem
      rcases List.mem_append.mp hmem with h1 | h2
      · exact hnq h1
      · exact transcribe_not_mem_loopTrace block hb (by omega) h2
  · obtain ⟨pre', post', htr, hcov, hnp, hnq⟩ :=
      loopTrace_split block hb hsplit (by omega : j + 1 ≤ i) hi
    refine ⟨block j ++ pre', post', ?_, ?_, ?_, hnq⟩
    · rw [htr, List.append_assoc]
    · intro m hm1 hm2 e he
      rcases eq_or_lt_of_le hm1 with hmj | hmj
      · subst hmj
        exact List.mem_append_left _ he
      · exact List.mem_append_right _ (hcov m (by omega) hm2 e he)
    · intro hmem
      rcases List.mem_append.mp hmem with h1 | h2
      · exact absurd (hb j i h1) (by omega)
      · exact hnp h2
termination_by _n i j => i - j
decreasing_by omega

/-- From a unique-occurrence decomposition of the trace, everything in the
`pre` part precedes the split event. -/
theorem precedes_of_decomp {e₁ e₂ : SegEv} {tr pre post : List SegEv}
    (htr : tr = pre ++ e₂ :: post) (hpre : e₁ ∈ pre)
    (hnp : e₂ ∉ pre) (hnq : e₂ ∉ post) : precedes e₁ e₂ tr := by
  intro pre' post' heq
  obtain ⟨hl, _⟩ := unique_middle (htr.symm.trans heq) hnp hnq
  exact hl ▸ hpre

/-- `seqBlock` mentions only its own transcription event. -/
theorem seqBlock_transcribe (n : Nat) :
    ∀ j k, SegEv.transcribe k ∈ seqBlock n j → k = j := by
  intro j k h
  simp only [seqBlock, List.mem_append, List.mem_cons, List.not_mem_nil, or_false] at h
  rcases h with (h | h | h | h) | h
  · exact absurd h (by simp)
  · simp only [SegEv.transcribe.injEq] at h
    exact h
  · exact absurd h (by simp)
  · exact absurd h (by simp)
  · by_cases hc : j + 1 < n <;> simp [hc] at h

/-- `seqBlock` splits at its transcription event. -/
theorem seqBlock_split (n : Nat) :
    ∀ m, ∃ bp bq, seqBlock n m = bp ++ SegEv.transcribe m :: bq ∧
      SegEv.transcribe m ∉ bp ∧ SegEv.transcribe m ∉ bq := by
  intro m
  refine ⟨[SegEv.preprocess m],
    [SegEv.append m, SegEv.cleanup m] ++ (if m + 1 < n then [SegEv.delay m] else []),
    ?_, by simp, ?_⟩
  · simp [seqBlock]
  · intro h
    rcases List.mem_append.mp h with h1 | h1
    · simp at h1
    · by_cases hc : m + 1 < n <;> simp [hc] at h1

/-- `chunkBlock` mentions only its own transcription event. -/
theorem chunkBlock_transcribe :
    ∀ j k, SegEv.transcribe k ∈ chunkBlock j → k = j := by
  intro j k h
  simp only [chunkBlock, List.mem_cons, List.not_mem_nil, or_false] at h
  rcases h with h | h | h
  · simp only [SegEv.transcribe.injEq] at h
    exact h
  · exact absurd h (by simp)
  · exact absurd h (by simp)

/-- `chunkBlock` splits at its transcription event. -/
theorem chunkBlock_split :
    ∀ m, ∃ bp bq, chunkBlock m = bp ++ SegEv.transcribe m :: bq ∧
      SegEv.transcribe m ∉ bp ∧ SegEv.transcribe m ∉ bq := by
  intro m
  exact ⟨[], [SegEv.append m, SegEv.cleanup m], rfl, by simp, by simp⟩

/-- C1 as amended: in part_003's `transcribeAudio` chunk loop, the
transcription of segment `i+1` is strictly preceded by segment `i`'s
append, temporary-file cleanup and the fixed 2-second delay; in
`processAudioChunks` the append and cleanup orderings hold as well, but
there is no delay event at all (see the counterexample). -/
theorem claim_C1_amended (n i : Nat) (h : i + 1 < n) :
    SegEv.transcribe (i + 1) ∈ transcribeAudioSeqTrace n ∧
    precedes (SegEv.append i) (SegEv.transcribe (i + 1)) (transcribeAudioSeqTrace n) ∧
    precedes (SegEv.cleanup i) (SegEv.transcribe (i + 1)) (transcribeAudioSeqTrace n) ∧
    precedes (SegEv.delay i) (SegEv.transcribe (i + 1)) (transcribeAudioSeqTrace n) ∧
    SegEv.transcribe (i + 1) ∈ processChunksTrace n ∧
    precedes (SegEv.append i) (SegEv.transcribe (i + 1)) (processChunksTrace n) ∧
    precedes (SegEv.cleanup i) (SegEv.transcribe (i + 1)) (processChunksTrace n) := by
  obtain ⟨pre, post, htr, hcov, hnp, hnq⟩ :=
    loopTrace_split (seqBlock n) (seqBlock_transcribe n) (seqBlock_split n)
      (Nat.zero_le (i + 1)) h
  obtain ⟨preC, postC, htrC, hcovC, hnpC, hnqC⟩ :=
    loopTrace_split chunkBlock chunkBlock_transcribe chunkBlock_split
      (Nat.zero_le (i + 1)) h
  have happ : SegEv.append i ∈ pre :=
    hcov i (Nat.zero_le i) (by omega) _ (by simp [seqBlock])
  have hclean : SegEv.cleanup i ∈ pre :=
    hcov i (Nat.zero_le i) (by omega) _ (by simp [seqBlock])
  have hdelay : SegEv.delay i ∈ pre :=
    hcov i (Nat.zero_le i) (by omega) _ (by simp [seqBlock, h])
  have happC : SegEv.append i ∈ preC :=
    hcovC i (Nat.zero_le i) (by omega) _ (by simp [chunkBlock])
  have hcleanC : SegEv.cleanup i ∈ preC :=
    hcovC i (Nat.zero_le i) (by omega) _ (by simp [chunkBlock])
  refine ⟨?_, precedes_of_decomp htr happ hnp hnq, precedes_of_decomp htr hclean hnp hnq,
    precedes_of_decomp htr hdelay hnp hnq, ?_,
    precedes_of_decomp htrC happC hnpC hnqC, precedes_of_decomp htrC hcleanC hnpC hnqC⟩
  · rw [show transcribeAudioSeqTrace n = loopTrace (seqBlock n) n 0 from rfl, htr]
    simp
  · rw [show processChunksTrace n = loopTrace chunkBlock n 0 from rfl, htrC]
    simp

/-- Witness for C1's amended statement on a 3-chunk job: segment 1's
transcription is preceded by segment 0's append, cleanup and delay. -/
theorem claim_C1_witness :
    0 + 1 < 3 ∧
    SegEv.transcribe 1 ∈ transcribeAudioSeqTrace 3 ∧
    precedes (SegEv.delay 0) (SegEv.transcribe 1) (transcribeAudioSeqTrace 3) :=
  ⟨by norm_num, (claim_C1_amended 3 0 (by norm_num)).1,
    (claim_C1_amended 3 0 (by norm_num)).2.2.2.1⟩

/-- Counterexample for C1: in the `processAudioChunks` loop of the hosted
service a second segment's transcription occurs, yet no delay event exists
anywhere in the trace — the loop proceeds to the next segment without any
inter-segment delay. -/
theorem claim_C1_counterexample :
    SegEv.transcribe 1 ∈ processChunksTrace 2 ∧
    SegEv.delay 0 ∉ processChunksTrace 2 ∧
    ¬ precedes (SegEv.delay 0) (SegEv.transcribe 1) (processChunksTrace 2) := by
  have htr : processChunksTrace 2 = [SegEv.transcribe 0, SegEv.append 0, SegEv.cleanup 0,
      SegEv.transcribe 1, SegEv.append 1, SegEv.cleanup 1] := by
    rw [show processChunksTrace 2 = loopTrace chunkBlock 2 0 from rfl,
      loopTrace_pos chunkBlock 2 0 (by norm_num),
      loopTrace_pos chunkBlock 2 1 (by norm_num),
      loopTrace_neg chunkBlock 2 2 (by norm_num)]
    rfl
  refine ⟨by rw [htr]; simp, by rw [htr]; simp, ?_⟩
  intro hp
  have hmem := hp [SegEv.transcribe 0, SegEv.append 0, SegEv.cleanup 0]
    [SegEv.append 1, SegEv.cleanup 1] (by rw [htr]; rfl)
  simp at hmem

@[simp] theorem PPC.inCS_idle : PPC.idle.inCS = False := rfl

@[simp] theorem PPC.inCS_inCS0 : PPC.inCS0.inCS = True := rfl

@[simp] theorem PPC.inCS_inCS1 (b : Bool) : (PPC.inCS1 b).inCS = True := rfl

@[simp] theorem PPC.inCS_finished : PPC.finished.inCS = False := rfl

@[simp] theorem PPC.inCS_skippedBusy : PPC.skippedBusy.inCS = False := rfl

/-- Marking the first pending row adds at most one `In Progress` row. -/
theorem count_markFirstPending_le (l : List TrStatus) :
    (markFirstPending l).count TrStatus.inProgress ≤ l.count TrStatus.inProgress + 1 := by
  induction l with
  | nil => simp [markFirstPending]
  | cons st rest ih =>
    cases st with
    | pending => simp [markFirstPending, List.count_cons]
    | inProgress => simpa [markFirstPending, List.count_cons] using ih
    | completed => simpa [markFirstPending, List.count_cons] using ih
    | failed => simpa [markFirstPending, List.count_cons] using ih

/-- Completing a row never increases the number of `In Progress` rows. -/
theorem count_set_completed_le (l : List TrStatus) (i : Nat) :
    (l.set i TrStatus.completed).count TrStatus.inProgress
      ≤ l.count TrStatus.inProgress := by
  induction l generalizing i with
  | nil => simp
  | cons st rest ih =>
    cases i with
    | zero => cases st <;> simp [List.count_cons]
    | succ k =>
      have := ih k
      simp only [List.set, List.count_cons]
      omega

/-- A row observed `In Progress` witnesses a positive count. -/
theorem count_pos_of_get? {l : List TrStatus} {i : Nat}
    (h : l.get? i = some TrStatus.inProgress) :
    0 < l.count TrStatus.inProgress := by
  have hmem : TrStatus.inProgress ∈ l := List.get?_mem h
  exact List.count_pos_iff.mpr hmem

/-- Appending a pending row leaves the `In Progress` count unchanged. -/
theorem count_append_pending (l : List TrStatus) :
    (l ++ [TrStatus.pending]).count TrStatus.inProgress
      = l.count TrStatus.inProgress := by
  simp [List.count_append]

/-- Initial states satisfy the invariant. -/
theorem init_inv {s : SysState} (h : InitState s) : MutexInv s := by
  obtain ⟨h1, h2, h3, h4⟩ := h
  refine ⟨?_, ?_, h4, ?_, ?_⟩
  · intro hcs
    rcases hcs with hc | hc
    · rw [h1] at hc
      simp at hc
    · rw [h2] at hc
      simp at hc
  · intro ⟨hc, _⟩
    rw [h1] at hc
    simp at hc
  · intro he
    rw [h1] at he
    cases he
  · intro he
    rw [h2] at he
    cases he

/-- Every step preserves the invariant. -/
theorem step_preserves {s s' : SysState} (hstep : Step s s') (hinv : MutexInv s) :
    MutexInv s' := by
  obtain ⟨hlock, hmutex, hcount, hk1, hk2⟩ := hinv
  cases hstep with
  | acquire1 h1 h2 =>
    have hp2 : ¬ s.p2.inCS := by
      intro hc
      have hl := hlock (Or.inr hc)
      rw [h2] at hl
      cases hl
    refine ⟨fun _ => rfl, ?_, hcount, ?_, ?_⟩
    · intro hc
      exact hp2 hc.2
    · intro he
      exact PPC.noConfusion he
    · intro he
      exact hk2 he
  | busy1 h1 h2 =>
    refine ⟨?_, ?_, hcount, ?_, ?_⟩
    · intro hcs
      rcases hcs with hc | hc
      · exact absurd hc (by simp : ¬ PPC.skippedBusy.inCS)
      · exact hlock (Or.inr hc)
    · intro hc
      exact absurd hc.1 (by simp : ¬ PPC.skippedBusy.inCS)
    · intro he
      exact PPC.noConfusion he
    · intro he
      exact hk2 he
  | check1 h =>
    have hp1 : s.p1.inCS := by
      rw [h]
      simp
    refine ⟨fun _ => hlock (Or.inl hp1), ?_, hcount, ?_, ?_⟩
    · intro hc
      exact hmutex ⟨hp1, hc.2⟩
    · intro he
      injection he with hb
      unfold hasInProgress at hb
      have hnp := of_decide_eq_false hb
      show List.count TrStatus.inProgress s.rows = 0
      omega
    · intro he
      exact hk2 he
  | act1 b h =>
    have hp1 : s.p1.inCS := by
      rw [h]
      simp
    have hp2 : ¬ s.p2.inCS := fun hc => hmutex ⟨hp1, hc⟩
    refine ⟨?_, ?_, ?_, ?_, ?_⟩
    · intro hcs
      rcases hcs with hc | hc
      · exact absurd hc (by simp : ¬ PPC.finished.inCS)
      · exact absurd hc hp2
    · intro hc
      exact hp2 hc.2
    · cases b with
      | true =>
        simpa using hcount
      | false =>
        have hz := hk1 h
        have hm := count_markFirstPending_le s.rows
        rw [if_neg (by decide : ¬ (false = true))]
        show List.count TrStatus.inProgress (markFirstPending s.rows) ≤ 1
        omega
    · intro he
      exact PPC.noConfusion he
    · intro he
      have he' : s.p2 = PPC.inCS1 false := he
      exact absurd (by rw [he']; simp : s.p2.inCS) hp2
  | acquire2 h1 h2 =>
    have hp1 : ¬ s.p1.inCS := by
      intro hc
      have hl := hlock (Or.inl hc)
      rw [h2] at hl
      cases hl
    refine ⟨fun _ => rfl, ?_, hcount, ?_, ?_⟩
    · intro hc
      exact hp1 hc.1
    · intro he
      exact hk1 he
    · intro he
      exact PPC.noConfusion he
  | busy2 h1 h2 =>
    refine ⟨?_, ?_, hcount, ?_, ?_⟩
    · intro hcs
      rcases hcs with hc | hc
      · exact hlock (Or.inl hc)
      · exact absurd hc (by simp : ¬ PPC.skippedBusy.inCS)
    · intro hc
      exact absurd hc.2 (by simp : ¬ PPC.skippedBusy.inCS)
    · intro he
      exact hk1 he
    · intro he
      exact PPC.noConfusion he
  | check2 h =>
    have hp2 : s.p2.inCS := by
      rw [h]
      simp
    refine ⟨fun _ => hlock (Or.inr hp2), ?_, hcount, ?_, ?_⟩
    · intro hc
      exact hmutex ⟨hc.1, hp2⟩
    · intro he
      exact hk1 he
    · intro he
      injection he with hb
      unfold hasInProgress at hb
      have hnp := of_decide_eq_false hb
      show List.count TrStatus.inProgress s.rows = 0
      omega
  | act2 b h =>
    have hp2 : s.p2.inCS := by
      rw [h]
      simp
    have hp1 : ¬ s.p1.inCS := fun hc => hmutex ⟨hc, hp2⟩
    refine ⟨?_, ?_, ?_, ?_, ?_⟩
    · intro hcs
      rcases hcs with hc | hc
      · exact absurd hc hp1
      · exact absurd hc (by simp : ¬ PPC.finished.inCS)
    · intro hc
      exact hp1 hc.1
    · cases b with
      | true =>
        simpa using hcount
      | false =>
        have hz := hk2 h
        have hm := count_markFirstPending_le s.rows
        rw [if_neg (by decide : ¬ (false = true))]
        show List.count TrStatus.inProgress (markFirstPending s.rows) ≤ 1
        omega
    · intro he
      have he' : s.p1 = PPC.inCS1 false := he
      exact absurd (by rw [he']; simp : s.p1.inCS) hp1
    · intro he
      exact PPC.noConfusion he
  | webhookComplete i h =>
    refine ⟨hlock, hmutex, ?_, ?_, ?_⟩
    · have := count_set_completed_le s.rows i
      show List.count TrStatus.inProgress (s.rows.set i TrStatus.completed) ≤ 1
      omega
    · intro he
      have hz := hk1 he
      have hpos := count_pos_of_get? h
      omega
    · intro he
      have hz := hk2 he
      have hpos := count_pos_of_get? h
      omega
  | appendPending =>
    refine ⟨hlock, hmutex, ?_, ?_, ?_⟩
    · rw [count_append_pending]
      exact hcount
    · intro he
      rw [count_append_pending]
      exact hk1 he
    · intro he
      rw [count_append_pending]
      exact hk2 he

/-- The invariant holds in every reachable state. -/
theorem reachable_inv {s₀ s : SysState} (h0 : InitState s₀) (hr : Reachable s₀ s) :
    MutexInv s := by
  induction hr with
  | refl => exact init_inv h0
  | tail _ hstep ih => exact step_preserves hstep ih

/-- C10: in every state reachable from an initial state, the two
invocations are never simultaneously inside the lock-protected section, at
most one row is `In Progress`, and while one invocation holds the critical
section the other's acquisition attempt can only leave it idle or observing
busy and skipping — it can never enter. -/
theorem claim_C10 (s₀ s : SysState) (h0 : InitState s₀) (hr : Reachable s₀ s) :
    ¬ (s.p1.inCS ∧ s.p2.inCS) ∧
    s.rows.count TrStatus.inProgress ≤ 1 ∧
    (∀ s', s.p1.inCS → s.p2 = PPC.idle → Step s s' →
      s'.p2 = PPC.idle ∨ s'.p2 = PPC.skippedBusy) ∧
    (∀ s', s.p2.inCS → s.p1 = PPC.idle → Step s s' →
      s'.p1 = PPC.idle ∨ s'.p1 = PPC.skippedBusy) := by
  obtain ⟨hlock, hmutex, hcount, _, _⟩ := reachable_inv h0 hr
  refine ⟨hmutex, hcount, ?_, ?_⟩
  · intro s' hcs hidle hstep
    have hl : s.lockHeld = true := hlock (Or.inl hcs)
    cases hstep with
    | acquire1 h1 h2 => exact Or.inl hidle
    | busy1 h1 h2 => exact Or.inl hidle
    | check1 h => exact Or.inl hidle
    | act1 b h => exact Or.inl hidle
    | acquire2 h1 h2 =>
      rw [h2] at hl
      exact Bool.noConfusion hl
    | busy2 h1 h2 => exact Or.inr rfl
    | check2 h =>
      rw [hidle] at h
      exact PPC.noConfusion h
    | act2 b h =>
      rw [hidle] at h
      exact PPC.noConfusion h
    | webhookComplete i h => exact Or.inl hidle
    | appendPending => exact Or.inl hidle
  · intro s' hcs hidle hstep
    have hl : s.lockHeld = true := hlock (Or.inr hcs)
    cases hstep with
    | acquire1 h1 h2 =>
      rw [h2] at hl
      exact Bool.noConfusion hl
    | busy1 h1 h2 => exact Or.inr rfl
    | check1 h =>
      rw [hidle] at h
      exact PPC.noConfusion h
    | act1 b h =>
      rw [hidle] at h
      exact PPC.noConfusion h
    | acquire2 h1 h2 => exact Or.inl hidle
    | busy2 h1 h2 => exact Or.inl hidle
    | check2 h => exact Or.inl hidle
    | act2 b h => exact Or.inl hidle
    | webhookComplete i h => exact Or.inl hidle
    | appendPending => exact Or.inl hidle

/-- Witness for C10 at a concrete initial state with one pending row. -/
theorem claim_C10_witness :
    InitState ⟨false, PPC.idle, PPC.idle, [TrStatus.pending]⟩ ∧
    ¬ ((⟨false, PPC.idle, PPC.idle, [TrStatus.pending]⟩ : SysState).p1.inCS ∧
        (⟨false, PPC.idle, PPC.idle, [TrStatus.pending]⟩ : SysState).p2.inCS) ∧
    (⟨false, PPC.idle, PPC.idle, [TrStatus.pending]⟩ : SysState).rows.count
        TrStatus.inProgress ≤ 1 := by
  have h0 : InitState ⟨false, PPC.idle, PPC.idle, [TrStatus.pending]⟩ :=
    ⟨rfl, rfl, rfl, by decide⟩
  have h := claim_C10 _ _ h0 Reachable.refl
  exact ⟨h0, h.1, h.2.1⟩

end SalesAudio
